import Mathlib

/-!
Shallow embedding of `acpl.py` (chess_scripts repository).

Chess positions, moves and the engine are external collaborators of the
script (python-chess library, UCI engine).  They are modelled abstractly:

* a `Move` is an opaque token (`Nat`);
* a `Board` is its move stack (the list of moves pushed since the game's
  initial position), which is exactly the state `board.push` / `board.pop`
  manipulate in the source;
* the engine is a pure function from the analysed position to its reply
  (`analyse` is called with a fixed depth limit everywhere, so the depth
  argument is dropped);
* the chess rules used by `truncate_pv` (`board.is_legal`,
  `board.is_game_over(claim_draw=True)`) are oracle functions packaged in
  a `Rules` record.

Scores reproduce python-chess `chess.engine`: `Cp`, `Mate`, `MateGiven`,
their negation, `score(mate_score=...)`, and `PovScore.white()`.
-/

namespace ChessScripts

/-- Constant `MAX_SCORE = 10000` (acpl.py line 18); also the literal
`10_000` used as `mate_score` in `eval_numeric`. -/
def MAX_SCORE : Int := 10000

/-- Constant `MAX_CPL = 2000` (acpl.py line 19). -/
def MAX_CPL : Int := 2000

/-- Constant `SHORT_PV_LEN = 10` (acpl.py line 20). -/
def SHORT_PV_LEN : Nat := 10

/-- Moves are opaque tokens. -/
abbrev Move := Nat

/-- A board, identified with its move stack relative to the game's initial
position (python-chess `Board.move_stack`). -/
structure Board where
  stack : List Move
deriving DecidableEq, Repr

/-- python-chess `Board.push`: appends the move to the stack. -/
def Board.push (b : Board) (m : Move) : Board := ⟨b.stack ++ [m]⟩

/-- python-chess `Board.pop`: removes the last pushed move. -/
def Board.pop (b : Board) : Board := ⟨b.stack.dropLast⟩

/-- python-chess `chess.engine` scores: `Cp(v)`, `Mate(n)`, `MateGiven`. -/
inductive Score where
  | cp (v : Int)
  | mate (n : Int)
  | mateGiven
deriving DecidableEq, Repr

/-- python-chess score negation: `-Cp(v) = Cp(-v)`,
`-Mate(n) = Mate(-n)` for `n ≠ 0`, `-Mate(0) = MateGiven`,
`-MateGiven = Mate(0)`. -/
def Score.neg : Score → Score
  | .cp v => .cp (-v)
  | .mate n => if n = 0 then .mateGiven else .mate (-n)
  | .mateGiven => .mate 0

/-- python-chess `Score.score(mate_score=m)`: `Cp(v) ↦ v`,
`Mate(n) ↦ m - n` when `n > 0`, `Mate(n) ↦ -m - n` otherwise,
`MateGiven ↦ m`. -/
def Score.scoreVal (m : Int) : Score → Int
  | .cp v => v
  | .mate n => if 0 < n then m - n else -m - n
  | .mateGiven => m

/-- python-chess `PovScore`: a score relative to `turn`
(`true` = White to move at the evaluated position). -/
structure PovScore where
  relative : Score
  turn : Bool
deriving DecidableEq, Repr

/-- python-chess `PovScore.white()`: the relative score if White is to
move, its negation otherwise. -/
def PovScore.white (s : PovScore) : Score :=
  if s.turn then s.relative else s.relative.neg

/-- An engine reply (`info` dictionary): principal variation and score.
`info["score"]` is a `PovScore` whose `turn` is the side to move of the
analysed position. -/
structure Info where
  pv : List Move
  score : PovScore
deriving DecidableEq, Repr

/-- The engine, as a pure oracle from the analysed position to its reply
(`engine.analyse(board, chess.engine.Limit(depth=22))`, acpl.py lines 62
and 72; the depth limit is the same at both call sites and is dropped). -/
abbrev Engine := Board → Info

/-- acpl.py lines 22-28, `eval_numeric`:
`info['score'].white().score(mate_score=10_000)`. -/
def eval_numeric (info : Info) : Int :=
  (info.score.white).scoreVal MAX_SCORE

/-- acpl.py lines 31-37, `eval_absolute`: negate a side-to-move-relative
number when Black is to move. (Dead code in the script: never called.) -/
def eval_absolute (number : Int) (white_to_move : Bool) : Int :=
  if white_to_move then number else -number

/-- The fields `judge_move` actually stores (acpl.py lines 60-82). -/
structure Judgment where
  bestmove : Move
  besteval : Int
  playedeval : Int
deriving DecidableEq, Repr

/-- Result of `judge_move`, with the in-place board mutation made explicit
(`board` is the caller's board as left by the call) and the positions sent
to the engine recorded in order (`analysed`), so that the number of engine
queries is observable. -/
structure JudgeResult where
  judgment : Judgment
  board : Board
  analysed : List Board
deriving DecidableEq, Repr

/-- acpl.py lines 39-82, `judge_move`.  `info["pv"][0]` raises when the
reply carries an empty pv; that failure is modelled as `none`.  In the
branch where the played move differs from the engine's best move, the move
is pushed, the engine queried again, and the move popped. -/
def judge_move (engine : Engine) (board : Board) (played_move : Move) :
    Option JudgeResult :=
  let info := engine board
  match info.pv with
  | [] => none
  | best :: _ =>
    let besteval := eval_numeric info
    if played_move = best then
      some ⟨⟨best, besteval, besteval⟩, board, [board]⟩
    else
      let b1 := board.push played_move
      let info2 := engine b1
      let playedeval := eval_numeric info2
      some ⟨⟨best, besteval, playedeval⟩, b1.pop, [board, b1]⟩

/-- Chess-rule oracles used by `truncate_pv`: `board.is_legal(move)` and
`board.is_game_over(claim_draw=True)`. -/
structure Rules where
  isLegal : Board → Move → Bool
  isGameOverClaimDraw : Board → Bool

/-- The failure raised by `truncate_pv` on an illegal pv move (an
`AssertionError` in the source; the spec calls it `IllegalMoveError`). -/
inductive PvError where
  | illegalMove
deriving DecidableEq, Repr

/-- The `for move in pv` loop of `truncate_pv` (acpl.py lines 90-93):
check each move's legality at the point it is applied and push it. -/
def truncate_pv_loop (r : Rules) (b : Board) : List Move → Except PvError Board
  | [] => .ok b
  | m :: rest =>
    if r.isLegal b m then truncate_pv_loop r (b.push m) rest
    else .error .illegalMove

/-- acpl.py lines 84-98, `truncate_pv`.  The board the loop mutated is
returned alongside the pv: the source pushes every pv move onto the
caller's board and never pops. -/
def truncate_pv (r : Rules) (board : Board) (pv : List Move) :
    Except PvError (List Move × Board) :=
  match truncate_pv_loop r board pv with
  | .error e => .error e
  | .ok b =>
    if r.isGameOverClaimDraw b then .ok (pv, b)
    else .ok (pv.take SHORT_PV_LEN, b)

/-- Stepwise legality of a pv from a position: each move legal at the point
it would be applied. -/
def pvLegal (r : Rules) : Board → List Move → Bool
  | _, [] => true
  | b, m :: rest => r.isLegal b m && pvLegal r (b.push m) rest

/-- The board obtained by pushing a whole pv. -/
def pushAll (b : Board) (pv : List Move) : Board := ⟨b.stack ++ pv⟩

/-- acpl.py lines 114-124, `cpl`: centipawn loss with a ceiling of
`MAX_CPL` (the source converts its argument with `int(...)`; it is always
called on the integer `besteval - playedeval`). -/
def cpl (x : Int) : Int := min x MAX_CPL

/-- acpl.py lines 127-135, `acpl`: `sum(cpl_list) / len(cpl_list)` as exact
rational arithmetic, with the `ZeroDivisionError` handler modelled by the
explicit empty-list guard returning `0`. -/
def acpl (l : List Int) : ℚ :=
  if l.length = 0 then 0 else (l.sum : ℚ) / (l.length : ℚ)

/-- Python's built-in `round` on the exact rational value: round half to
even. -/
def pyRound (q : ℚ) : Int :=
  if Int.fract q < 1 / 2 then ⌊q⌋
  else if 1 / 2 < Int.fract q then ⌊q⌋ + 1
  else if ⌊q⌋ % 2 = 0 then ⌊q⌋ else ⌊q⌋ + 1

/-- A PGN header mapping (python-chess `Headers`), as an association list. -/
abbrev Headers := List (String × String)

/-- Assignment `headers[key] = value`: replace the entry if the key is
present (keys are unique, as in a python dict), append it otherwise. -/
def setHeader : Headers → String → String → Headers
  | [], k, v => [(k, v)]
  | p :: t, k, v => if p.1 = k then (k, v) :: t else p :: setHeader t k v

/-- Lookup `headers[key]`. -/
def getHeader (h : Headers) (k : String) : Option String :=
  Option.map Prod.snd (List.find? (fun p => p.1 = k) h)

/-- A board as `add_acpl` and the opening classifier observe it:
`board_fen()`, `castling_xfen()` and `turn` (`true` = White to move). -/
structure BoardInfo where
  board_fen : String
  castling_xfen : String
  turn : Bool
deriving DecidableEq, Repr

/-- acpl.py lines 101-111, `eco_fen`:
`"<board_fen> <to_move> <castling_xfen>"`. -/
def eco_fen (b : BoardInfo) : String :=
  b.board_fen ++ " " ++ (if b.turn then "w" else "b") ++ " " ++ b.castling_xfen

/-- A node of the judged segment walked by `add_acpl` (acpl.py lines
249-260): the board *after* the move that reached the node
(`node.board()`) and the judgment stored in `node.comment` by
`analyze_game`. -/
structure JudgedNode where
  board : BoardInfo
  judgment : Judgment
deriving DecidableEq, Repr

/-- The `while not node == root_node` loop of `add_acpl` (acpl.py lines
248-260), over the list of judged nodes from `game.end()` down to (and
excluding) `root_node`.  `delta = besteval - playedeval`; when
`node.board().turn` is true (White to move after the move, i.e. Black made
the move) the clamped delta is appended to `black_cpl`, otherwise to
`white_cpl`. -/
def add_acpl_loop : List JudgedNode → List Int → List Int → List Int × List Int
  | [], w, b => (w, b)
  | n :: rest, w, b =>
    if n.board.turn then
      add_acpl_loop rest w (b ++ [cpl (n.judgment.besteval - n.judgment.playedeval)])
    else
      add_acpl_loop rest (w ++ [cpl (n.judgment.besteval - n.judgment.playedeval)]) b

/-- acpl.py lines 239-265, `add_acpl`: run the loop, then write
`headers["WhiteACPL"] = str(round(acpl(white_cpl)))` and
`headers["BlackACPL"] = str(round(acpl(black_cpl)))`. -/
def add_acpl (headers : Headers) (seg : List JudgedNode) : Headers :=
  let p := add_acpl_loop seg [] []
  setHeader (setHeader headers "WhiteACPL" (toString (pyRound (acpl p.1))))
    "BlackACPL" (toString (pyRound (acpl p.2)))

/-- Specification-side description of one side's loss list: the clamped
deltas of the nodes the given side moved into (`side = true` for Black,
matching `node.board().turn`), in walk order. -/
def lossesOf (side : Bool) (seg : List JudgedNode) : List Int :=
  List.map (fun n => min (n.judgment.besteval - n.judgment.playedeval) MAX_CPL)
    (List.filter (fun n => n.board.turn = side) seg)

/-- A python-chess game node: the move that reached it (`none` at the
root), its comment, its NAG list, and its child variations.  `variations`
head, when present, is the main variation; `node.parent` is represented
implicitly by the tree structure. -/
inductive GameNode where
  | mk (move : Option Move) (comment : Option String) (nags : List Nat)
      (variations : List GameNode)

/-- The `variations` list of a node. -/
def GameNode.variations : GameNode → List GameNode
  | .mk _ _ _ vs => vs

/-- python-chess `game.end()`: follow the main variation (`variations[0]`)
until a node with no continuation. -/
def endNode : GameNode → GameNode
  | .mk m c n [] => .mk m c n []
  | .mk _ _ _ (v :: _) => endNode v

/-- The main line of a node: the node itself followed by the main line of
its main variation.  `endNode t ∈ mainlinePath t` always, which makes the
end position reachable from the root by definition. -/
def mainlinePath : GameNode → List GameNode
  | .mk m c n [] => [.mk m c n []]
  | .mk m c n (v :: vs) => .mk m c n (v :: vs) :: mainlinePath v

/-- A parsed game: headers, the parser's recorded error list, and the root
node. -/
structure Game where
  headers : Headers
  errors : List String
  root : GameNode

/-- The failure raised by `checkgame` (a `RuntimeError` in the source; the
spec calls it `InvalidGameError`). -/
inductive GameError where
  | invalidGame
deriving DecidableEq, Repr

/-- acpl.py lines 301-314, `checkgame`: raise if `game.errors` is
non-empty, then raise if `game.end().parent is None`.  In python-chess
`end()` starts at the root and follows `variations[0]`, so its parent is
`None` exactly when the root has no variations (the game records no
move). -/
def checkgame (g : Game) : Except GameError Unit :=
  if ¬ g.errors.isEmpty then .error .invalidGame
  else if g.root.variations.isEmpty then .error .invalidGame
  else .ok ()

/-- acpl.py lines 138-159, the per-node effect of `clean_game`'s walk on
the main line: clear the comment and the NAG list and remove every
non-main variation, keeping only the (cleaned) main variation.  The walk
visits exactly the main-line nodes (it follows parent links from
`game.end()`, which was reached through `variations[0]` links), and
removing the non-main variations of a main-line node discards those side
subtrees wholesale, which is what keeping only the cleaned head models. -/
def cleanNode : GameNode → GameNode
  | .mk m _ _ [] => .mk m none [] []
  | .mk m _ _ (v :: _) => .mk m none [] [cleanNode v]

/-- acpl.py lines 138-159, `clean_game`: headers and errors untouched, the
tree cleaned from the end to the root. -/
def clean_game (g : Game) : Game :=
  { g with root := cleanNode g.root }

/-- A linear tree with no markup: every node has no comment, no NAGs, and
exactly one continuation — except the last node, which has none. -/
def linearClean : GameNode → Bool
  | .mk _ c n [] => c.isNone && n.isEmpty
  | .mk _ c n [v] => c.isNone && n.isEmpty && linearClean v
  | .mk _ _ _ (_ :: _ :: _) => false

/-- One record of the eco.json reference table: position key (`fen`), ECO
code (`eco`), opening name (`name`), and canonical move path (`moves`). -/
structure EcoRecord where
  fen : String
  eco : String
  name : String
  moves : String
deriving DecidableEq, Repr

/-- The classification dictionary built by `classify_fen`. -/
structure OpeningClass where
  code : String
  desc : String
  path : String
deriving DecidableEq, Repr

/-- acpl.py lines 176-197, `classify_fen`: scan the whole table without
breaking, overwriting the classification on every record whose `fen`
matches — so the *last* matching record wins — starting from empty
strings. -/
def classify_fen (fen : String) (ecodb : List EcoRecord) : OpeningClass :=
  List.foldl
    (fun c o => if o.fen = fen then ⟨o.eco, o.name, o.moves⟩ else c)
    ⟨"", "", ""⟩ ecodb

/-- A main-line node as the classifier and `analyze_game` observe it after
`clean_game`: the move that reached it, its board, and its comment. -/
structure LinNode where
  move : Move
  board : BoardInfo
  comment : Option String
deriving DecidableEq, Repr

/-- A cleaned (linear) game for the classification pass: headers plus the
main-line nodes listed from `game.end()` *down to and excluding* the root
— the order in which `classify_opening`'s `while not node == game.root()`
walk visits them. -/
structure LinGame where
  headers : Headers
  revLine : List LinNode
deriving Repr

/-- The walk of `classify_opening` (acpl.py lines 209-233), instrumented:
returns the list of position strings examined (in walk order), the final
`ply_count`, and on success the index (from the end) of the matched node
together with its classification.  A node matches when `classify_fen`
returns a non-empty `code`; on a match the walk breaks, otherwise
`ply_count` is incremented and the walk moves one ply toward the root. -/
def classify_loop (ecodb : List EcoRecord) :
    List LinNode → List String × Nat × Option (Nat × OpeningClass)
  | [] => ([], 0, none)
  | n :: rest =>
    let fen := eco_fen n.board
    let c := classify_fen fen ecodb
    if c.code ≠ "" then ([fen], 0, some (0, c))
    else
      let r := classify_loop ecodb rest
      (fen :: r.1, r.2.1 + 1, Option.map (fun p => (p.1 + 1, p.2)) r.2.2)

/-- Overwrite the comment of the node at the given index (from the end of
the game) with the classification comment. -/
def setCommentAt : List LinNode → Nat → String → List LinNode
  | [], _, _ => []
  | n :: rest, 0, c => { n with comment := some c } :: rest
  | n :: rest, i + 1, c => n :: setCommentAt rest i c

/-- acpl.py lines 199-236, `classify_opening`: on a match at walk index
`i`, write `headers["ECO"]` and `headers["Opening"]` from the
classification, overwrite that node's comment with
`"<code> <desc>"`, remember the node as the classified root, and stop;
with or without a match, finally write `headers["Moves"] = str(ply_count)`.
Returns the updated game, the classified root as an index from the end
(`none` meaning the game's true root), and the ply count. -/
def classify_opening (ecodb : List EcoRecord) (g : LinGame) :
    LinGame × Option Nat × Nat :=
  let r := classify_loop ecodb g.revLine
  match r.2.2 with
  | some (i, c) =>
    let h1 := setHeader (setHeader g.headers "ECO" c.code) "Opening" c.desc
    let line1 := setCommentAt g.revLine i (c.code ++ " " ++ c.desc)
    (⟨setHeader h1 "Moves" (toString r.2.1), line1⟩, some i, r.2.1)
  | none =>
    (⟨setHeader g.headers "Moves" (toString r.2.1), g.revLine⟩, none, r.2.1)

/-- Whether some record of the table matches a node's position string. -/
def hasEcoMatch (ecodb : List EcoRecord) (n : LinNode) : Bool :=
  List.any ecodb fun r => r.fen = eco_fen n.board

/-- Rules oracle for witnesses: every move legal, no position game-over. -/
def rulesW : Rules := ⟨fun _ _ => true, fun _ => false⟩

/-- Engine stub for the C7 witness: best move `3`, score +10 cp. -/
def engineW7 : Engine := fun _ => ⟨[3], ⟨Score.cp 10, true⟩⟩

/-- Engine stub for the C9 witness: best move `4`, score 0. -/
def engineW9 : Engine := fun _ => ⟨[4], ⟨Score.cp 0, true⟩⟩

/-- Engine stub for the C1 counterexample: Black to move at the analysed
position, relative score +50 centipawns for the side to move. -/
def engineC1 : Engine := fun _ => ⟨[5], ⟨Score.cp 50, false⟩⟩

/-- The result `judge_move` produces on `engineC1`. -/
def resC1 : JudgeResult := ⟨⟨5, -50, -50⟩, ⟨[]⟩, [⟨[]⟩]⟩

/-- Engine stub for the C1 witness: at the root position the reply is
best move `5` with +50 cp for the side to move (Black); after a push the
reply is best move `9` with -30 cp for the side to move (White). -/
def engineC1b : Engine := fun bb =>
  if bb.stack = [] then ⟨[5], ⟨Score.cp 50, false⟩⟩
  else ⟨[9], ⟨Score.cp (-30), true⟩⟩

/-- The result `judge_move` produces on `engineC1b` for played move `7`. -/
def resC1b : JudgeResult := ⟨⟨5, -50, -30⟩, ⟨[]⟩, [⟨[]⟩, ⟨[7]⟩]⟩

/-- Input of the C2 counterexample: one node whose mover is White
(`turn = false` after the move) with `besteval = 0`, `playedeval = 100`. -/
def segC2 : List JudgedNode := [⟨⟨"8/8", "-", false⟩, ⟨0, 0, 100⟩⟩]

/-- Input of the C8 witness: one node whose mover is Black. -/
def segC8 : List JudgedNode := [⟨⟨"8/8", "-", true⟩, ⟨0, 5, 3⟩⟩]

/-- A parsed game with no recorded errors and no moves: its end node *is*
its root, hence trivially reachable from it. -/
def gameC3 : Game := ⟨[], [], .mk none none [] []⟩

/-- Reference table of the C4 witness: a single record. -/
def dbC4 : List EcoRecord := [⟨"f1 b kq", "B20", "Sicilian", "1. e4 c5"⟩]

/-- Game of the C4 witness: the end node (walk index 0) does not match
the table, the node one ply closer to the root (walk index 1) does. -/
def gameC4 : LinGame :=
  ⟨[], [⟨1, ⟨"f0", "kq", true⟩, none⟩, ⟨2, ⟨"f1", "kq", false⟩, none⟩]⟩

theorem pushAll_nil (b : Board) : pushAll b [] = b := by
  cases b
  simp [pushAll]

theorem pushAll_cons (b : Board) (m : Move) (pv : List Move) :
    pushAll b (m :: pv) = pushAll (b.push m) pv := by
  simp [pushAll, Board.push]

theorem pop_push (b : Board) (m : Move) : (b.push m).pop = b := by
  cases b
  simp [Board.push, Board.pop]

theorem truncate_pv_loop_ok (r : Rules) :
    ∀ (pv : List Move) (b : Board), pvLegal r b pv = true →
      truncate_pv_loop r b pv = .ok (pushAll b pv)
  | [], b, _ => by simp [truncate_pv_loop, pushAll_nil]
  | m :: pv, b, h => by
    rw [pvLegal, Bool.and_eq_true] at h
    rw [truncate_pv_loop, if_pos h.1, pushAll_cons]
    exact truncate_pv_loop_ok r pv (b.push m) h.2

theorem truncate_pv_loop_err (r : Rules) :
    ∀ (pv : List Move) (b : Board), pvLegal r b pv = false →
      truncate_pv_loop r b pv = .error .illegalMove
  | [], _, h => by simp [pvLegal] at h
  | m :: pv, b, h => by
    by_cases hl : r.isLegal b m = true
    · rw [pvLegal, hl, Bool.true_and] at h
      rw [truncate_pv_loop, if_pos hl]
      exact truncate_pv_loop_err r pv (b.push m) h
    · rw [truncate_pv_loop, if_neg hl]

theorem truncate_pv_loop_ok_inv (r : Rules) :
    ∀ (pv : List Move) (b b2 : Board),
      truncate_pv_loop r b pv = .ok b2 → b2 = pushAll b pv
  | [], b, b2, h => by
    rw [truncate_pv_loop] at h
    cases h
    rw [pushAll_nil]
  | m :: pv, b, b2, h => by
    rw [truncate_pv_loop] at h
    by_cases hl : r.isLegal b m = true
    · rw [if_pos hl] at h
      rw [pushAll_cons]
      exact truncate_pv_loop_ok_inv r pv (b.push m) b2 h
    · rw [if_neg hl] at h
      cases h

/-- C5: `truncate_pv` returns the pv unmodified when applying the full pv
reaches a position that is game-over with draw claims, returns exactly the
first `SHORT_PV_LEN = 10` half-moves when it does not, and fails with the
illegal-move error when some pv move is illegal at the point it would be
applied. -/
theorem truncate_pv_spec (r : Rules) (b : Board) (pv : List Move) :
    (pvLegal r b pv = true →
      truncate_pv r b pv =
        .ok (if r.isGameOverClaimDraw (pushAll b pv) = true then pv
          else pv.take SHORT_PV_LEN, pushAll b pv)) ∧
    (pvLegal r b pv = false → truncate_pv r b pv = .error .illegalMove) := by
  constructor
  · intro h
    rw [truncate_pv, truncate_pv_loop_ok r pv b h]
    by_cases hg : r.isGameOverClaimDraw (pushAll b pv) = true
    · rw [if_pos hg]
      simp [hg]
    · rw [if_neg hg]
      simp [hg]
  · intro h
    rw [truncate_pv, truncate_pv_loop_err r pv b h]

/-- Witness for C5 at a concrete input: a legal 12-move pv that does not
end the game is truncated to its first 10 moves. -/
theorem truncate_pv_spec_witness :
    pvLegal rulesW ⟨[]⟩ [1, 2, 3, 4, 5, 6, 7, 8, 9, 10, 11, 12] = true ∧
    truncate_pv rulesW ⟨[]⟩ [1, 2, 3, 4, 5, 6, 7, 8, 9, 10, 11, 12] =
      .ok ([1, 2, 3, 4, 5, 6, 7, 8, 9, 10],
        pushAll ⟨[]⟩ [1, 2, 3, 4, 5, 6, 7, 8, 9, 10, 11, 12]) := by
  have h :=
    (truncate_pv_spec rulesW ⟨[]⟩ [1, 2, 3, 4, 5, 6, 7, 8, 9, 10, 11, 12]).1
      (by decide)
  refine ⟨by decide, ?_⟩
  rw [h]
  rfl

/-- C10: whenever `truncate_pv` returns without raising, the caller's
board has had all pv moves pushed onto it: it is left at the final pv
position, not at the position the caller supplied. -/
theorem truncate_pv_board_mutated (r : Rules) (b : Board) (pv : List Move)
    (res : List Move) (b2 : Board) (h : truncate_pv r b pv = .ok (res, b2)) :
    b2 = pushAll b pv := by
  rw [truncate_pv] at h
  cases hl : truncate_pv_loop r b pv with
  | error e => rw [hl] at h; simp at h
  | ok bb =>
    rw [hl] at h
    have hb := truncate_pv_loop_ok_inv r pv b bb hl
    by_cases hg : r.isGameOverClaimDraw bb = true
    · simp [hg] at h
      subst hb
      exact h.2.symm
    · simp [hg] at h
      subst hb
      exact h.2.symm

/-- Witness for C10 at a concrete input: after a successful call on the
empty-stack board with pv `[1, 2]`, the caller's board holds `[1, 2]`. -/
theorem truncate_pv_board_mutated_witness :
    (⟨[1, 2]⟩ : Board) = pushAll ⟨[]⟩ [1, 2] :=
  truncate_pv_board_mutated rulesW ⟨[]⟩ [1, 2] [1, 2] ⟨[1, 2]⟩ (by rfl)

/-- C7: when the played move equals the engine-reported best move,
`judge_move` copies `besteval` into `playedeval` and analyses exactly one
position (no second engine query), leaving the board untouched. -/
theorem judge_move_bestmove_shortcut (e : Engine) (b : Board) (m : Move)
    (h : (e b).pv.head? = some m) :
    judge_move e b m =
      some ⟨⟨m, eval_numeric (e b), eval_numeric (e b)⟩, b, [b]⟩ := by
  rw [judge_move]
  cases hpv : (e b).pv with
  | nil => rw [hpv] at h; cases h
  | cons best rest =>
    rw [hpv] at h
    rw [List.head?_cons, Option.some_inj] at h
    subst h
    simp

/-- Witness for C7 at a concrete input: a stub engine whose best move is
`3`, judged on the played move `3`. -/
theorem judge_move_bestmove_shortcut_witness :
    judge_move engineW7 ⟨[]⟩ 3 = some ⟨⟨3, 10, 10⟩, ⟨[]⟩, [⟨[]⟩]⟩ := by
  rw [judge_move_bestmove_shortcut engineW7 ⟨[]⟩ 3 (by decide)]
  decide

theorem scoreVal_neg (m : Int) (s : Score) :
    s.neg.scoreVal m = -(s.scoreVal m) := by
  cases s with
  | cp v => simp [Score.neg, Score.scoreVal]
  | mateGiven => simp [Score.neg, Score.scoreVal]
  | mate n =>
    by_cases h0 : n = 0
    · subst h0
      simp [Score.neg, Score.scoreVal]
    · rw [Score.neg, if_neg h0, Score.scoreVal, Score.scoreVal]
      by_cases hp : 0 < n
      · rw [if_neg (by omega : ¬ 0 < -n), if_pos hp]
        ring
      · rw [if_pos (by omega : 0 < -n), if_neg hp]
        ring

theorem eval_numeric_eq_absolute (info : Info) :
    eval_numeric info =
      eval_absolute (info.score.relative.scoreVal MAX_SCORE) info.score.turn := by
  cases ht : info.score.turn <;>
    simp [eval_numeric, PovScore.white, eval_absolute, ht, scoreVal_neg]

/-- C1 counterexample: with Black to move and the engine reporting +50
relative to the side to move, `judge_move` stores `besteval = -50` — the
White-relative value (`PovScore.white()` is applied inside
`eval_numeric`), strictly below the side-to-move-relative value +50 the
claim says is stored. -/
theorem judge_move_not_relative_counterexample :
    judge_move engineC1 ⟨[]⟩ 5 = some resC1 ∧
    (engineC1 ⟨[]⟩).score.relative.scoreVal MAX_SCORE = 50 ∧
    resC1.judgment.besteval < (engineC1 ⟨[]⟩).score.relative.scoreVal MAX_SCORE :=
  ⟨by decide, by decide, by decide⟩

/-- C1 (amended): the evaluations `judge_move` stores are White-relative.
Both `besteval` and (after the second engine query) `playedeval` equal the
side-to-move-relative score of the corresponding engine reply negated
exactly when Black is to move at the evaluated position — the negation the
claim reserves for callers is already applied at storage time by
`PovScore.white()`, so no further negation converts to a White-relative
scale.  Forced-mate scores go through `score(mate_score=10000)` and stay
within `[-10000, 10000]` for mate distances up to `10000`
(`Mate(n) ↦ 10000 - n`, not an unbounded value). -/
theorem judge_move_white_relative :
    (∀ (e : Engine) (b : Board) (m : Move) (res : JudgeResult),
      judge_move e b m = some res →
        res.judgment.besteval =
          eval_absolute ((e b).score.relative.scoreVal MAX_SCORE)
            (e b).score.turn ∧
        (∀ best rest, (e b).pv = best :: rest → m ≠ best →
          res.judgment.playedeval =
            eval_absolute ((e (b.push m)).score.relative.scoreVal MAX_SCORE)
              (e (b.push m)).score.turn)) ∧
    (∀ n : Int, 0 ≤ n → n ≤ MAX_SCORE →
      -MAX_SCORE ≤ (Score.mate n).scoreVal MAX_SCORE ∧
      (Score.mate n).scoreVal MAX_SCORE ≤ MAX_SCORE ∧
      -MAX_SCORE ≤ (Score.mate (-n)).scoreVal MAX_SCORE ∧
      (Score.mate (-n)).scoreVal MAX_SCORE ≤ MAX_SCORE ∧
      Score.mateGiven.scoreVal MAX_SCORE = MAX_SCORE) := by
  constructor
  · intro e b m res h
    rw [judge_move] at h
    cases hpv : (e b).pv with
    | nil => rw [hpv] at h; cases h
    | cons best rest =>
      rw [hpv] at h
      by_cases hm : m = best
      · simp only [hm, if_true] at h
        cases h
        refine ⟨eval_numeric_eq_absolute (e b), ?_⟩
        intro best2 rest2 hpv2 hne
        cases hpv2
        exact absurd hm hne
      · simp only [if_neg hm] at h
        cases h
        refine ⟨eval_numeric_eq_absolute (e b), ?_⟩
        intro best2 rest2 hpv2 hne
        exact eval_numeric_eq_absolute (e (b.push m))
  · intro n h0 h1
    refine ⟨?_, ?_, ?_, ?_, rfl⟩ <;>
      (simp only [Score.scoreVal, MAX_SCORE] at *; split_ifs <;> omega)

/-- Witness for C1 (amended) at a concrete input exercising the
second-query branch (played move `7`, best move `5`) and a mate-in-3
score. -/
theorem judge_move_white_relative_witness :
    resC1b.judgment.besteval =
      eval_absolute ((engineC1b ⟨[]⟩).score.relative.scoreVal MAX_SCORE)
        (engineC1b ⟨[]⟩).score.turn ∧
    resC1b.judgment.playedeval =
      eval_absolute ((engineC1b (Board.push ⟨[]⟩ 7)).score.relative.scoreVal
        MAX_SCORE) (engineC1b (Board.push ⟨[]⟩ 7)).score.turn ∧
    -MAX_SCORE ≤ (Score.mate 3).scoreVal MAX_SCORE ∧
    (Score.mate 3).scoreVal MAX_SCORE ≤ MAX_SCORE := by
  have h1 := judge_move_white_relative.1 engineC1b ⟨[]⟩ 7 resC1b (by decide)
  have h2 := judge_move_white_relative.2 3 (by decide) (by decide)
  exact ⟨h1.1, h1.2 5 [] (by decide) (by decide), h2.1, h2.2.1⟩

/-- C9: `judge_move` leaves the caller's board exactly as it was: in the
branch that pushes the played move for the second evaluation, the push is
reverted (popped) before returning. -/
theorem judge_move_preserves_board (e : Engine) (b : Board) (m : Move)
    (res : JudgeResult) (h : judge_move e b m = some res) : res.board = b := by
  rw [judge_move] at h
  cases hpv : (e b).pv with
  | nil => rw [hpv] at h; cases h
  | cons best rest =>
    rw [hpv] at h
    by_cases hm : m = best
    · simp only [hm, if_true] at h
      cases h
      rfl
    · simp only [hm, if_false, if_neg hm] at h
      cases h
      exact pop_push b m

/-- Witness for C9 at a concrete input exercising the push/pop branch:
played move `9` differs from the stub engine's best move `4`. -/
theorem judge_move_preserves_board_witness :
    (⟨⟨4, 0, 0⟩, ⟨[7]⟩, [⟨[7]⟩, ⟨[7, 9]⟩]⟩ : JudgeResult).board = ⟨[7]⟩ :=
  judge_move_preserves_board engineW9 ⟨[7]⟩ 9
    ⟨⟨4, 0, 0⟩, ⟨[7]⟩, [⟨[7]⟩, ⟨[7, 9]⟩]⟩ (by decide)

theorem getHeader_set_same : ∀ (h : Headers) (k v : String),
    getHeader (setHeader h k v) k = some v
  | [], k, v => by simp [setHeader, getHeader]
  | p :: t, k, v => by
    rw [setHeader]
    by_cases hp : p.1 = k
    · rw [if_pos hp]
      simp [getHeader]
    · rw [if_neg hp]
      rw [getHeader, List.find?_cons_of_neg _ (by simp [hp])]
      exact getHeader_set_same t k v

theorem getHeader_set_other :
    ∀ (h : Headers) (k v k2 : String), k2 ≠ k →
      getHeader (setHeader h k v) k2 = getHeader h k2
  | [], k, v, k2, hne => by
    rw [setHeader]
    simp only [getHeader]
    rw [List.find?_cons_of_neg _ (by simp [Ne.symm hne])]
  | p :: t, k, v, k2, hne => by
    rw [setHeader]
    by_cases hp : p.1 = k
    · rw [if_pos hp]
      simp only [getHeader]
      rw [List.find?_cons_of_neg _ (by simp [Ne.symm hne]),
        List.find?_cons_of_neg _ (by rw [hp]; simp [Ne.symm hne])]
    · rw [if_neg hp]
      by_cases hp2 : p.1 = k2
      · simp only [getHeader]
        rw [List.find?_cons_of_pos _ (by simp [hp2]),
          List.find?_cons_of_pos _ (by simp [hp2])]
      · simp only [getHeader]
        rw [List.find?_cons_of_neg _ (by simp [hp2]),
          List.find?_cons_of_neg _ (by simp [hp2])]
        exact getHeader_set_other t k v k2 hne

theorem add_acpl_loop_append :
    ∀ (seg : List JudgedNode) (w b : List Int),
      add_acpl_loop seg w b = (w ++ lossesOf false seg, b ++ lossesOf true seg)
  | [], w, b => by simp [add_acpl_loop, lossesOf]
  | n :: rest, w, b => by
    rw [add_acpl_loop]
    by_cases ht : n.board.turn = true
    · rw [if_pos ht, add_acpl_loop_append rest w _]
      simp [lossesOf, ht, cpl]
    · rw [if_neg ht, add_acpl_loop_append rest _ b]
      have ht2 : n.board.turn = false := by
        cases hb : n.board.turn
        · rfl
        · exact absurd hb ht
      simp [lossesOf, ht2, cpl]

/-- C2 counterexample: `cpl` has no floor, so when `playedeval` exceeds
`besteval` the value appended to the mover's loss list is negative —
here `-100` is appended to White's list, refuting the claim that every
appended value is non-negative. -/
theorem add_acpl_negative_counterexample :
    add_acpl_loop segC2 [] [] = ([-100], []) ∧ (-100 : Int) < 0 :=
  ⟨by decide, by decide⟩

/-- C2 (amended): the walk of `add_acpl` appends, for each node, the value
`min (besteval - playedeval) MAX_CPL` — the delta clamped above at 2000
but *not* floored below, so it can be negative when `playedeval` exceeds
`besteval` — to the loss list of the side that made the move into that
node (the side not on move after the move); every appended value is at
most 2000; and the raw deltas 100, 300, 2500 average to 800 after
clamping. -/
theorem add_acpl_loop_spec (seg : List JudgedNode) :
    add_acpl_loop seg [] [] = (lossesOf false seg, lossesOf true seg) ∧
    (∀ x ∈ (add_acpl_loop seg [] []).1, x ≤ MAX_CPL) ∧
    (∀ x ∈ (add_acpl_loop seg [] []).2, x ≤ MAX_CPL) ∧
    pyRound (acpl (List.map cpl [100, 300, 2500])) = 800 := by
  have h := add_acpl_loop_append seg [] []
  simp only [List.nil_append] at h
  have h800 : pyRound (acpl (List.map cpl [100, 300, 2500])) = 800 := by
    have hv : acpl (List.map cpl [100, 300, 2500]) = 800 := by
      norm_num [acpl, cpl, MAX_CPL]
    rw [hv]
    norm_num [pyRound, Int.fract]
  refine ⟨h, ?_, ?_, h800⟩
  · rw [h]
    intro x hx
    simp only [lossesOf, List.mem_map, List.mem_filter] at hx
    obtain ⟨n, _, hx2⟩ := hx
    rw [← hx2]
    exact min_le_right _ _
  · rw [h]
    intro x hx
    simp only [lossesOf, List.mem_map, List.mem_filter] at hx
    obtain ⟨n, _, hx2⟩ := hx
    rw [← hx2]
    exact min_le_right _ _

/-- Witness for C2 (amended) at a concrete input: the single-node segment
of the counterexample, whose appended (negative) loss is ≤ 2000. -/
theorem add_acpl_loop_spec_witness :
    add_acpl_loop segC2 [] [] = (lossesOf false segC2, lossesOf true segC2) ∧
    (-100 : Int) ≤ MAX_CPL :=
  ⟨(add_acpl_loop_spec segC2).1,
    (add_acpl_loop_spec segC2).2.1 (-100) (by decide)⟩

/-- C8: `acpl` of an empty loss list is 0 rather than a division error,
and consequently `add_acpl` writes "0" as a side's average centipawn loss
when that side made no judged moves (all judged nodes have the other
side's side-to-move flag after the move). -/
theorem acpl_empty_and_zero_headers (h : Headers) (seg : List JudgedNode) :
    acpl [] = 0 ∧
    ((∀ n ∈ seg, n.board.turn = true) →
      getHeader (add_acpl h seg) "WhiteACPL" = some "0") ∧
    ((∀ n ∈ seg, n.board.turn = false) →
      getHeader (add_acpl h seg) "BlackACPL" = some "0") := by
  have h0 : toString (pyRound (acpl ([] : List Int))) = "0" := by
    have hz : pyRound (acpl ([] : List Int)) = 0 := by
      norm_num [acpl, pyRound, Int.fract]
    rw [hz]
    decide
  refine ⟨by simp [acpl], ?_, ?_⟩
  · intro hall
    have hw : lossesOf false seg = [] := by
      rw [lossesOf, List.filter_eq_nil_iff.mpr ?_, List.map_nil]
      intro n hn
      simp [hall n hn]
    simp only [add_acpl]
    rw [add_acpl_loop_append, List.nil_append, List.nil_append, hw]
    rw [getHeader_set_other _ _ _ _ (by decide), getHeader_set_same]
    rw [show acpl (([] : List Int), lossesOf true seg).1 = acpl ([] : List Int)
      from rfl, h0]
  · intro hall
    have hb : lossesOf true seg = [] := by
      rw [lossesOf, List.filter_eq_nil_iff.mpr ?_, List.map_nil]
      intro n hn
      simp [hall n hn]
    simp only [add_acpl]
    rw [add_acpl_loop_append, List.nil_append, List.nil_append, hb]
    rw [getHeader_set_same]
    rw [show acpl ((lossesOf false seg, ([] : List Int))).2 = acpl ([] : List Int)
      from rfl, h0]

/-- Witness for C8 at a concrete input: Black made the only judged move,
so White's average centipawn loss header reads "0". -/
theorem acpl_empty_and_zero_headers_witness :
    getHeader (add_acpl [] segC8) "WhiteACPL" = some "0" :=
  (acpl_empty_and_zero_headers [] segC8).2.1 (by decide)

/-- C3 counterexample: `checkgame` rejects the error-free zero-move game
`gameC3`, whose end position coincides with (and is therefore reachable
from) its root — refuting the claim that validation succeeds for every
game with zero parsing errors and a reachable end position. -/
theorem checkgame_counterexample :
    gameC3.errors = [] ∧
    endNode gameC3.root = gameC3.root ∧
    endNode gameC3.root ∈ mainlinePath gameC3.root ∧
    checkgame gameC3 = .error .invalidGame :=
  ⟨rfl, rfl, by simp [gameC3, endNode, mainlinePath], rfl⟩

/-- C3 (amended): `checkgame` succeeds exactly for the games with zero
recorded parsing errors whose root has a mainline continuation (so that
`game.end().parent` is not `None`); it fails with the invalid-game error
for every other game — including an error-free game with no moves, whose
end node equals (and is thus trivially reachable from) its root.  The
check consults only the parsed game, never the engine. -/
theorem checkgame_spec (g : Game) :
    checkgame g = .ok () ↔
      (g.errors = [] ∧ g.root.variations.isEmpty = false) := by
  rw [checkgame]
  by_cases he : g.errors.isEmpty
  · rw [if_neg (by simp [he])]
    by_cases hv : g.root.variations.isEmpty
    · rw [if_pos hv]
      simp [hv]
    · rw [if_neg hv]
      simp [List.isEmpty_iff.mp he, Bool.eq_false_iff.mpr hv]
  · rw [if_pos (by simp [he])]
    constructor
    · intro h
      cases h
    · intro h
      exact absurd (by simp [h.1]) he

theorem cleanNode_idem : ∀ t : GameNode, cleanNode (cleanNode t) = cleanNode t
  | .mk m c n [] => by rw [cleanNode, cleanNode]
  | .mk m c n (v :: vs) => by
    rw [cleanNode, cleanNode, cleanNode_idem v]

theorem cleanNode_linear : ∀ t : GameNode, linearClean (cleanNode t) = true
  | .mk m c n [] => by rw [cleanNode]; rfl
  | .mk m c n (v :: vs) => by
    rw [cleanNode, linearClean]
    simp [cleanNode_linear v]

/-- C6: `clean_game` is idempotent, preserves the headers (and the error
list), and produces a tree with no comments, no NAGs, and exactly one
continuation at every node — zero at the end node (`linearClean`). -/
theorem clean_game_spec (g : Game) :
    clean_game (clean_game g) = clean_game g ∧
    (clean_game g).headers = g.headers ∧
    (clean_game g).errors = g.errors ∧
    linearClean (clean_game g).root = true :=
  ⟨by simp [clean_game, cleanNode_idem], rfl, rfl, cleanNode_linear g.root⟩

theorem classify_foldl_no_match (fen : String) :
    ∀ (db : List EcoRecord) (init : OpeningClass),
      (∀ r ∈ db, r.fen ≠ fen) →
      List.foldl (fun c o => if o.fen = fen then ⟨o.eco, o.name, o.moves⟩ else c)
        init db = init
  | [], _, _ => rfl
  | o :: t, init, h => by
    rw [List.foldl_cons, if_neg (h o (by simp))]
    exact classify_foldl_no_match fen t init fun r hr => h r (by simp [hr])

theorem classify_foldl_match (fen : String) :
    ∀ (db : List EcoRecord) (init : OpeningClass),
      (∃ r ∈ db, r.fen = fen) →
      ∃ r ∈ db, r.fen = fen ∧
        List.foldl (fun c o => if o.fen = fen then ⟨o.eco, o.name, o.moves⟩ else c)
          init db = ⟨r.eco, r.name, r.moves⟩
  | [], _, h => by simp at h
  | o :: t, init, h => by
    by_cases ht : ∃ r ∈ t, r.fen = fen
    · obtain ⟨r, hr, hfen, heq⟩ :=
        classify_foldl_match fen t
          (if o.fen = fen then ⟨o.eco, o.name, o.moves⟩ else init) ht
      refine ⟨r, by simp [hr], hfen, ?_⟩
      rw [List.foldl_cons]
      exact heq
    · have ho : o.fen = fen := by
        obtain ⟨r, hr, hfen⟩ := h
        rcases List.mem_cons.mp hr with h1 | h2
        · rw [← h1]
          exact hfen
        · exact absurd ⟨r, h2, hfen⟩ ht
      have hnone : ∀ r ∈ t, r.fen ≠ fen := fun r hr hf => ht ⟨r, hr, hf⟩
      refine ⟨o, by simp, ho, ?_⟩
      rw [List.foldl_cons, if_pos ho]
      exact classify_foldl_no_match fen t _ hnone

theorem classify_fen_no_match (fen : String) (db : List EcoRecord)
    (h : ∀ r ∈ db, r.fen ≠ fen) : classify_fen fen db = ⟨"", "", ""⟩ :=
  classify_foldl_no_match fen db ⟨"", "", ""⟩ h

theorem classify_fen_match (fen : String) (db : List EcoRecord)
    (h : ∃ r ∈ db, r.fen = fen) :
    ∃ r ∈ db, r.fen = fen ∧ classify_fen fen db = ⟨r.eco, r.name, r.moves⟩ :=
  classify_foldl_match fen db ⟨"", "", ""⟩ h

theorem classify_fen_code_ne_imp (fen : String) (db : List EcoRecord)
    (h : (classify_fen fen db).code ≠ "") : ∃ r ∈ db, r.fen = fen := by
  by_contra hne
  push_neg at hne
  rw [classify_fen_no_match fen db hne] at h
  exact h rfl

theorem classify_fen_code_of_match (fen : String) (db : List EcoRecord)
    (hcodes : ∀ r ∈ db, r.eco ≠ "") (h : ∃ r ∈ db, r.fen = fen) :
    (classify_fen fen db).code ≠ "" := by
  obtain ⟨r, hr, _, heq⟩ := classify_fen_match fen db h
  rw [heq]
  exact hcodes r hr

theorem hasEcoMatch_true_iff (db : List EcoRecord) (n : LinNode) :
    hasEcoMatch db n = true ↔ ∃ r ∈ db, r.fen = eco_fen n.board := by
  simp [hasEcoMatch]

theorem hasEcoMatch_false_imp (db : List EcoRecord) (n : LinNode)
    (h : hasEcoMatch db n = false) : ∀ r ∈ db, r.fen ≠ eco_fen n.board := by
  simp [hasEcoMatch] at h
  exact h

theorem classify_loop_some_match (db : List EcoRecord) :
    ∀ (line : List LinNode) (i : Nat) (c : OpeningClass),
      (classify_loop db line).2.2 = some (i, c) →
      ∃ nd, line.get? i = some nd ∧ ∃ r ∈ db, r.fen = eco_fen nd.board
  | [], i, c, h => by simp [classify_loop] at h
  | n :: rest, i, c, h => by
    simp only [classify_loop] at h
    by_cases hc : (classify_fen (eco_fen n.board) db).code ≠ ""
    · rw [if_pos hc] at h
      have h2 : (some (0, classify_fen (eco_fen n.board) db) :
          Option (Nat × OpeningClass)) = some (i, c) := h
      rw [Option.some_inj, Prod.mk.injEq] at h2
      refine ⟨n, ?_, classify_fen_code_ne_imp _ db hc⟩
      rw [← h2.1]
      rfl
    · rw [if_neg hc] at h
      have h2 : Option.map (fun p : Nat × OpeningClass => (p.1 + 1, p.2))
          (classify_loop db rest).2.2 = some (i, c) := h
      cases hr : (classify_loop db rest).2.2 with
      | none => rw [hr] at h2; cases h2
      | some p =>
        rw [hr] at h2
        have h3 : (some (p.1 + 1, p.2) : Option (Nat × OpeningClass)) =
            some (i, c) := h2
        rw [Option.some_inj, Prod.mk.injEq] at h3
        obtain ⟨nd, hget, hex⟩ :=
          classify_loop_some_match db rest p.1 p.2 (by rw [hr])
        refine ⟨nd, ?_, hex⟩
        rw [← h3.1, List.get?_cons_succ]
        exact hget

theorem classify_loop_match (db : List EcoRecord)
    (hcodes : ∀ r ∈ db, r.eco ≠ "") :
    ∀ line : List LinNode, (∃ n ∈ line, hasEcoMatch db n = true) →
      ∃ nd,
        line.get? (List.findIdx (fun n => hasEcoMatch db n) line) = some nd ∧
        hasEcoMatch db nd = true ∧
        classify_loop db line =
          (List.map (fun n => eco_fen n.board)
            (List.take (List.findIdx (fun n => hasEcoMatch db n) line + 1) line),
            List.findIdx (fun n => hasEcoMatch db n) line,
            some (List.findIdx (fun n => hasEcoMatch db n) line,
              classify_fen (eco_fen nd.board) db))
  | [], h => by simp at h
  | n :: rest, h => by
    by_cases hn : hasEcoMatch db n = true
    · have hc : (classify_fen (eco_fen n.board) db).code ≠ "" :=
        classify_fen_code_of_match _ db hcodes ((hasEcoMatch_true_iff db n).mp hn)
      have hidx : List.findIdx (fun n => hasEcoMatch db n) (n :: rest) = 0 := by
        rw [List.findIdx_cons, hn]
        rfl
      refine ⟨n, ?_, hn, ?_⟩
      · rw [hidx]
        rfl
      · rw [hidx]
        simp only [classify_loop]
        rw [if_pos hc]
        rfl
    · have hnf : hasEcoMatch db n = false := by
        cases hb : hasEcoMatch db n
        · rfl
        · exact absurd hb hn
      have hc : ¬ (classify_fen (eco_fen n.board) db).code ≠ "" := by
        rw [classify_fen_no_match _ db (hasEcoMatch_false_imp db n hnf)]
        simp
      have hrest : ∃ n0 ∈ rest, hasEcoMatch db n0 = true := by
        obtain ⟨n0, hn0, hm0⟩ := h
        rcases List.mem_cons.mp hn0 with h1 | h2
        · rw [h1] at hm0
          exact absurd hm0 hn
        · exact ⟨n0, h2, hm0⟩
      obtain ⟨nd, hget, hnd, hloop⟩ := classify_loop_match db hcodes rest hrest
      have hidx : List.findIdx (fun n => hasEcoMatch db n) (n :: rest) =
          List.findIdx (fun n => hasEcoMatch db n) rest + 1 := by
        rw [List.findIdx_cons, hnf]
        rfl
      refine ⟨nd, ?_, hnd, ?_⟩
      · rw [hidx, List.get?_cons_succ]
        exact hget
      · rw [hidx]
        simp only [classify_loop]
        rw [if_neg hc, hloop]
        rfl

theorem setCommentAt_get_ne :
    ∀ (l : List LinNode) (i j : Nat) (c : String), j ≠ i →
      (setCommentAt l i c).get? j = l.get? j
  | [], _, _, _, _ => rfl
  | n :: rest, 0, j, c, hne => by
    rw [setCommentAt]
    cases j with
    | zero => exact absurd rfl hne
    | succ j => rw [List.get?_cons_succ, List.get?_cons_succ]
  | n :: rest, i + 1, j, c, hne => by
    rw [setCommentAt]
    cases j with
    | zero => rfl
    | succ j =>
      rw [List.get?_cons_succ, List.get?_cons_succ]
      exact setCommentAt_get_ne rest i j c fun h => hne (by rw [h])

/-- C4: under a well-formed reference table (every record carries a
non-empty ECO code, true of eco.json), `classify_opening` (1) never
attaches a classification at a node whose position string is absent from
the table, and (2) whenever some walked main-line position matches the
table, it attaches exactly one classification — at the deepest
(closest-to-the-end) matching position, index `findIdx` of the end-first
walk — writing the matched code and description into the "ECO" and
"Opening" headers, overwriting only that node's comment with
"<code> <description>", and examining exactly the positions from the end
through the match (none closer to the root). -/
theorem classify_opening_spec (db : List EcoRecord) (g : LinGame)
    (hcodes : ∀ r ∈ db, r.eco ≠ "") :
    (∀ i c, (classify_loop db g.revLine).2.2 = some (i, c) →
      ∃ nd, g.revLine.get? i = some nd ∧ ∃ r ∈ db, r.fen = eco_fen nd.board) ∧
    (∀ n0 ∈ g.revLine, hasEcoMatch db n0 = true →
      ∃ nd,
        g.revLine.get? (List.findIdx (fun n => hasEcoMatch db n) g.revLine) =
          some nd ∧
        (classify_opening db g).2.1 =
          some (List.findIdx (fun n => hasEcoMatch db n) g.revLine) ∧
        getHeader (classify_opening db g).1.headers "ECO" =
          some (classify_fen (eco_fen nd.board) db).code ∧
        getHeader (classify_opening db g).1.headers "Opening" =
          some (classify_fen (eco_fen nd.board) db).desc ∧
        (∃ r ∈ db, r.fen = eco_fen nd.board ∧
          (classify_fen (eco_fen nd.board) db).code = r.eco) ∧
        (classify_opening db g).1.revLine =
          setCommentAt g.revLine
            (List.findIdx (fun n => hasEcoMatch db n) g.revLine)
            ((classify_fen (eco_fen nd.board) db).code ++ " " ++
              (classify_fen (eco_fen nd.board) db).desc) ∧
        (∀ j, j ≠ List.findIdx (fun n => hasEcoMatch db n) g.revLine →
          (classify_opening db g).1.revLine.get? j = g.revLine.get? j) ∧
        (classify_loop db g.revLine).1 =
          List.map (fun n => eco_fen n.board)
            (List.take (List.findIdx (fun n => hasEcoMatch db n) g.revLine + 1)
              g.revLine)) := by
  constructor
  · intro i c h
    exact classify_loop_some_match db g.revLine i c h
  · intro n0 hn0 hm0
    obtain ⟨nd, hget, hnd, hloop⟩ :=
      classify_loop_match db hcodes g.revLine ⟨n0, hn0, hm0⟩
    have hco : classify_opening db g =
        (⟨setHeader
            (setHeader (setHeader g.headers "ECO"
              (classify_fen (eco_fen nd.board) db).code)
              "Opening" (classify_fen (eco_fen nd.board) db).desc)
            "Moves"
            (toString (List.findIdx (fun n => hasEcoMatch db n) g.revLine)),
          setCommentAt g.revLine
            (List.findIdx (fun n => hasEcoMatch db n) g.revLine)
            ((classify_fen (eco_fen nd.board) db).code ++ " " ++
              (classify_fen (eco_fen nd.board) db).desc)⟩,
          some (List.findIdx (fun n => hasEcoMatch db n) g.revLine),
          List.findIdx (fun n => hasEcoMatch db n) g.revLine) := by
      rw [classify_opening, hloop]
    have hmatch : ∃ r ∈ db, r.fen = eco_fen nd.board :=
      (hasEcoMatch_true_iff db nd).mp hnd
    obtain ⟨r, hr, hrfen, hcf⟩ := classify_fen_match (eco_fen nd.board) db hmatch
    refine ⟨nd, hget, ?_, ?_, ?_, ⟨r, hr, hrfen, by rw [hcf]⟩, ?_, ?_, ?_⟩
    · rw [hco]
    · rw [hco]
      show getHeader (setHeader (setHeader (setHeader g.headers "ECO" _)
        "Opening" _) "Moves" _) "ECO" = _
      rw [getHeader_set_other _ _ _ _ (by decide),
        getHeader_set_other _ _ _ _ (by decide), getHeader_set_same]
    · rw [hco]
      show getHeader (setHeader (setHeader (setHeader g.headers "ECO" _)
        "Opening" _) "Moves" _) "Opening" = _
      rw [getHeader_set_other _ _ _ _ (by decide), getHeader_set_same]
    · rw [hco]
    · intro j hj
      rw [hco]
      exact setCommentAt_get_ne g.revLine _ j _ hj
    · rw [hloop]

/-- Witness for C4 at a concrete input: the classified root is the
deepest matching node, at walk index 1. -/
theorem classify_opening_spec_witness :
    (classify_opening dbC4 gameC4).2.1 =
      some (List.findIdx (fun n => hasEcoMatch dbC4 n) gameC4.revLine) ∧
    List.findIdx (fun n => hasEcoMatch dbC4 n) gameC4.revLine = 1 := by
  obtain ⟨nd, hget, h1, h2⟩ :=
    (classify_opening_spec dbC4 gameC4 (by decide)).2
      ⟨2, ⟨"f1", "kq", false⟩, none⟩ (by decide) (by decide)
  exact ⟨h1, by decide⟩

end ChessScripts
